import Mathlib

/-!
Verification of the version-lifecycle and comment-thread subsystem of a
Google-Drive management dashboard (handlers/version_control_handler.py,
handlers/comments_handler.py, controllers/comment_controller.py,
models/google_drive_utils.py, models/mongodb_model.py).

The Python code is shallowly embedded: pure data transformations become Lean
functions on lists of structures; the MongoDB collections become lists of
documents; the Google Drive service becomes an explicit `World` record holding
the revision list of the file under consideration together with fault-injection
flags describing which external calls succeed; effectful functions return their
result, the new `World`, and a trace of the external calls they performed.
-/

/-! ## String helpers (Python `str` comparison and `in` operator) -/

/-- Python compares strings lexicographically by code point; `≤` on the
underlying character lists. -/
def strLeList : List Char → List Char → Bool
  | [], _ => true
  | _ :: _, [] => false
  | a :: as, b :: bs =>
    if a.toNat < b.toNat then true
    else if b.toNat < a.toNat then false
    else strLeList as bs

def strLe (s t : String) : Bool := strLeList s.data t.data

/-- Whether `n` is a literal prefix of `h` (helper for the substring test). -/
def isPrefOf : List Char → List Char → Bool
  | [], _ => true
  | _ :: _, [] => false
  | a :: as, b :: bs => a == b && isPrefOf as bs

/-- Python's `needle in haystack` substring test on character lists. -/
def containsSub (needle : List Char) : List Char → Bool
  | [] => needle.isEmpty
  | h :: hs => isPrefOf needle (h :: hs) || containsSub needle hs

theorem strLeList_total : ∀ s t, strLeList s t || strLeList t s := by
  intro s
  induction s with
  | nil => intro t; simp [strLeList]
  | cons a as ih =>
    intro t
    cases t with
    | nil => simp [strLeList]
    | cons b bs =>
      simp only [strLeList]
      rcases Nat.lt_trichotomy a.toNat b.toNat with h | h | h
      · simp [h, Nat.not_lt.mpr (Nat.le_of_lt h)]
      · simp [h, Nat.lt_irrefl, ih bs]
      · simp [h, Nat.not_lt.mpr (Nat.le_of_lt h)]

theorem strLeList_trans :
    ∀ s t u, strLeList s t → strLeList t u → strLeList s u := by
  intro s
  induction s with
  | nil => intro t u _ _; simp [strLeList]
  | cons a as ih =>
    intro t u h1 h2
    cases t with
    | nil => simp [strLeList] at h1
    | cons b bs =>
      cases u with
      | nil => simp [strLeList] at h2
      | cons c cs =>
        simp only [strLeList] at h1 h2 ⊢
        rcases Nat.lt_trichotomy a.toNat b.toNat with hab | hab | hab
        · rcases Nat.lt_trichotomy b.toNat c.toNat with hbc | hbc | hbc
          · simp [Nat.lt_trans hab hbc]
          · simp [hbc ▸ hab]
          · simp [Nat.lt_asymm hbc, hbc] at h2
        · rcases Nat.lt_trichotomy b.toNat c.toNat with hbc | hbc | hbc
          · simp [hab ▸ hbc]
          · simp [hab, hbc, Nat.lt_irrefl] at h1 h2 ⊢
            exact ih bs cs h1 h2
          · simp [Nat.lt_asymm hbc, hbc] at h2
        · simp [Nat.lt_asymm hab, hab] at h1

/-! ## Comment data model (documents in the `comments` collection) -/

/-- Reply record as produced by `mongo_save_reply` (mongodb_model.py). -/
structure Reply where
  id : String
  user : String
  timestamp : String
  content : String
deriving DecidableEq

/-- Comment record as produced by `mongo_save_new_comment` (mongodb_model.py):
`resolved` defaults to `false`, `replies` to `[]`. -/
structure Comment where
  id : String
  user : String
  timestamp : String
  content : String
  resolved : Bool
  replies : List Reply
deriving DecidableEq

/-- Filter criteria dictionary used by
`CommentController._get_filtered_comments` (comment_controller.py). -/
structure FilterCriteria where
  status : String
  user_filter : String
  search_text : String
deriving DecidableEq

/-- Embedding of `CommentController._get_filtered_comments`
(comment_controller.py, lines 324-364): three sequential list
comprehensions over the fetched comments, each guarded by its criterion. -/
def getFilteredComments (comments : List Comment) (fc : FilterCriteria) :
    List Comment :=
  let c1 :=
    if fc.status ≠ "all" then
      comments.filter (fun c => c.resolved == decide (fc.status = "resolved"))
    else comments
  let c2 :=
    if fc.user_filter ≠ "all" then
      c1.filter (fun c => c.user == fc.user_filter)
    else c1
  if fc.search_text ≠ "" then
    c2.filter (fun c =>
      containsSub fc.search_text.toLower.data c.content.toLower.data)
  else c2

/-- The conjunction of the three filter predicates, as the specification
states them: pass-through on `"all"` / empty values. -/
def filterPred (fc : FilterCriteria) (c : Comment) : Bool :=
  (decide (fc.status = "all") || c.resolved == decide (fc.status = "resolved"))
    && (decide (fc.user_filter = "all") || c.user == fc.user_filter)
    && (decide (fc.search_text = "")
        || containsSub fc.search_text.toLower.data c.content.toLower.data)

/-- C6: the comment filter is the pure filter of the conjunction of the three
independent predicates (status equality, exact user equality, case-insensitive
substring on content), with `"all"`/empty criteria filtering nothing; as a
`List.filter` it preserves relative order and returns input elements unchanged
(so replies are never examined or modified).  In particular the criteria
`{status := "resolved", user_filter := "all", search_text := ""}` return
exactly the resolved comments in original order. -/
theorem getFilteredComments_spec (comments : List Comment)
    (fc : FilterCriteria) :
    getFilteredComments comments fc = comments.filter (filterPred fc)
      ∧ getFilteredComments comments ⟨"resolved", "all", ""⟩
          = comments.filter (fun c => c.resolved) := by
  constructor
  · unfold getFilteredComments filterPred
    by_cases h1 : fc.status = "all" <;>
      by_cases h2 : fc.user_filter = "all" <;>
        by_cases h3 : fc.search_text = "" <;>
          simp only [h1, h2, h3, ne_eq, not_true_eq_false, not_false_eq_true,
            if_true, if_false, ite_true, ite_false, List.filter_filter] <;>
          first
          | · symm
              rw [List.filter_eq_self]
              intro c _
              simp [h1, h2, h3]
          | · apply List.filter_congr
              intro c _
              cases hA : (c.resolved == decide (fc.status = "resolved")) <;>
                cases hB : (c.user == fc.user_filter) <;>
                  cases hC : (containsSub fc.search_text.toLower.data
                    c.content.toLower.data) <;>
                    simp [h1, h2, h3, hA, hB, hC]
  · unfold getFilteredComments
    have hs : ("resolved" : String) ≠ "all" := by decide
    have hu : ¬ ("all" : String) ≠ "all" := by decide
    have ht : ¬ ("" : String) ≠ "" := by decide
    simp only [if_pos hs, if_neg hu, if_neg ht]
    apply List.filter_congr
    intro c _
    simp

/-! ## The `revisions` collection (mongodb_model.py) -/

/-- Entry of the `versions` array pushed by `mongo_save_version`. -/
structure VRec where
  id : String
  name : String
  description : String
deriving DecidableEq

/-- Per-file document of the `revisions` collection. -/
structure FileDocR where
  file_id : String
  description : String
  versions : List VRec
deriving DecidableEq

/-- MongoDB `update_one`: apply `g` to the first element matching `p`
(later matches are left alone). -/
def updateFirst (p : α → Bool) (g : α → α) : List α → List α
  | [] => []
  | a :: as => if p a then g a :: as else a :: updateFirst p g as

/-- Embedding of `mongo_save_version` (mongodb_model.py, lines 16-59):
`find_one({file_id})`; if a document exists, `$push` the new version entry
onto its `versions` array (no existence check on the version id), otherwise
`insert_one` a fresh document. -/
def mongo_save_version (coll : List FileDocR)
    (file_id version_id version_name description : String) : List FileDocR :=
  if coll.any (fun d => d.file_id = file_id) then
    updateFirst (fun d => decide (d.file_id = file_id))
      (fun d => {d with versions :=
        d.versions ++ [⟨version_id, version_name, description⟩]})
      coll
  else
    coll ++ [⟨file_id, description, [⟨version_id, version_name, description⟩]⟩]

/-- Embedding of `mongo_delete_version` (mongodb_model.py, lines 62-82):
`update_one({file_id}, {$pull: {versions: {id: version_id}}})` — the pull
removes every array entry with that id from the first matching document. -/
def mongo_delete_version (coll : List FileDocR) (file_id version_id : String) :
    List FileDocR :=
  updateFirst (fun d => decide (d.file_id = file_id))
    (fun d => {d with versions :=
      d.versions.filter (fun r => !decide (r.id = version_id))})
    coll

/-- Embedding of `mongo_get_version` (mongodb_model.py, lines 85-105):
`find_one({file_id, versions.id}, {versions.$})` — first matching document,
projected to its first version entry with the requested id. -/
def mongo_get_version (coll : List FileDocR) (file_id version_id : String) :
    Option VRec :=
  (coll.find? (fun d =>
      decide (d.file_id = file_id)
        && d.versions.any (fun r => decide (r.id = version_id)))).bind
    (fun d => d.versions.find? (fun r => decide (r.id = version_id)))

/-- The `versions` array of the first document stored for a file (empty when
the file has no document). -/
def versionsFor (coll : List FileDocR) (file_id : String) : List VRec :=
  ((coll.find? (fun d => decide (d.file_id = file_id))).map
    (fun d => d.versions)).getD []

theorem versionsFor_save (coll : List FileDocR) (f v n d : String)
    (h : coll.any (fun doc => decide (doc.file_id = f))) :
    versionsFor (mongo_save_version coll f v n d) f
        = versionsFor coll f ++ [⟨v, n, d⟩]
      ∧ (mongo_save_version coll f v n d).any
          (fun doc => decide (doc.file_id = f)) := by
  unfold mongo_save_version
  rw [if_pos h]
  induction coll with
  | nil => simp at h
  | cons a as ih =>
    by_cases ha : a.file_id = f
    · simp [updateFirst, versionsFor, ha, List.find?_cons_of_pos]
    · have h' : as.any (fun doc => decide (doc.file_id = f)) := by
        simp [List.any_cons, ha] at h
        simpa using h
      have := ih h'
      simp only [updateFirst, ha, decide_eq_true_eq, if_false,
        decide_False] at this ⊢
      constructor
      · simpa [versionsFor, List.find?_cons_of_neg, ha] using this.1
      · simp [List.any_cons, ha]
        simpa using this.2

/-- C7: `mongo_save_version` is not idempotent.  If a document for the file
already exists, calling it twice with the same revision id pushes two entries
with that id, increasing the number of metadata records carrying the id by
exactly two — the second call does not upsert, it appends a duplicate. -/
theorem mongo_save_version_duplicates (coll : List FileDocR) (f v n d : String)
    (h : coll.any (fun doc => decide (doc.file_id = f))) :
    (versionsFor (mongo_save_version (mongo_save_version coll f v n d) f v n d)
        f).countP (fun r => decide (r.id = v))
      = (versionsFor coll f).countP (fun r => decide (r.id = v)) + 2 := by
  obtain ⟨h1, hany⟩ := versionsFor_save coll f v n d h
  obtain ⟨h2, _⟩ := versionsFor_save (mongo_save_version coll f v n d) f v n d
    hany
  rw [h2, h1]
  simp [List.countP_append, List.countP_cons]

/-- Witness for the hypothesis of `mongo_save_version_duplicates`: a concrete
collection with an existing document for the file. -/
theorem mongo_save_version_duplicates_witness :
    (versionsFor
        (mongo_save_version
          (mongo_save_version [⟨"f1", "d", []⟩] "f1" "r1" "draft.txt" "v2")
          "f1" "r1" "draft.txt" "v2")
        "f1").countP (fun r => decide (r.id = "r1"))
      = (versionsFor ([⟨"f1", "d", []⟩] : List FileDocR) "f1").countP
          (fun r => decide (r.id = "r1")) + 2 :=
  mongo_save_version_duplicates [⟨"f1", "d", []⟩] "f1" "r1" "draft.txt" "v2"
    (by decide)

/-! ## The `comments` collection (mongodb_model.py) -/

/-- Version entry of a `comments`-collection document.  The `comments` field
is optional: `mongo_get_comments_of_version` reads it with
`version.get("comments", [])`, so a version entry may lack it. -/
structure CVer where
  id : String
  name : String
  comments : Option (List Comment)
deriving DecidableEq

/-- Per-file document of the `comments` collection (keyed by `id`). -/
structure CFileDoc where
  id : String
  versions : List CVer
deriving DecidableEq

/-- Embedding of `mongo_get_comments_of_version` (mongodb_model.py, lines
133-158): `find_one({id, versions.id})`, then a loop over `versions`
returning `version.get("comments", [])` for the first entry with the
requested id; every miss returns the empty list. -/
def mongo_get_comments_of_version (coll : List CFileDoc)
    (file_id version_id : String) : List Comment :=
  match coll.find? (fun d =>
      decide (d.id = file_id)
        && d.versions.any (fun ver => decide (ver.id = version_id))) with
  | some doc =>
    match doc.versions.find? (fun ver => decide (ver.id = version_id)) with
    | some ver => ver.comments.getD []
    | none => []
  | none => []

/-- C10: `mongo_get_comments_of_version` is total over missing data — it
returns the empty list (never an error, never `None`) when the file has no
document, when no document of the file has a version entry carrying the
requested id (documents of other files may carry it), and when the matching
version entry has no `comments` field. -/
theorem mongo_get_comments_of_version_total (coll : List CFileDoc)
    (file_id version_id : String) :
    ((∀ d ∈ coll, d.id ≠ file_id) →
        mongo_get_comments_of_version coll file_id version_id = [])
      ∧ ((∀ d ∈ coll, d.id = file_id →
            ∀ ver ∈ d.versions, ver.id ≠ version_id) →
          mongo_get_comments_of_version coll file_id version_id = [])
      ∧ (∀ d ver,
          coll.find? (fun d => decide (d.id = file_id)
              && d.versions.any (fun ver => decide (ver.id = version_id)))
            = some d →
          d.versions.find? (fun ver => decide (ver.id = version_id))
            = some ver →
          ver.comments = none →
          mongo_get_comments_of_version coll file_id version_id = []) := by
  refine ⟨?_, ?_, ?_⟩
  · intro h
    unfold mongo_get_comments_of_version
    have : coll.find? (fun d => decide (d.id = file_id)
        && d.versions.any (fun ver => decide (ver.id = version_id))) = none := by
      rw [List.find?_eq_none]
      intro d hd
      simp [h d hd]
    rw [this]
  · intro h
    unfold mongo_get_comments_of_version
    have : coll.find? (fun d => decide (d.id = file_id)
        && d.versions.any (fun ver => decide (ver.id = version_id))) = none := by
      rw [List.find?_eq_none]
      intro d hd
      simp only [Bool.and_eq_true, List.any_eq_true, not_and]
      rintro hid ⟨ver, hver, hvid⟩
      exact absurd (by simpa using hvid)
        (h d hd (by simpa using hid) ver hver)
    rw [this]
  · intro d ver hfind hver hnone
    unfold mongo_get_comments_of_version
    rw [hfind]
    simp only [hver, hnone, Option.getD_none]

/-- Witness for `mongo_get_comments_of_version_total`: the file's document
has no entry for version `v1` while another file's document does carry a
version entry with id `v1` — the listing is still empty. -/
theorem mongo_get_comments_of_version_total_witness :
    mongo_get_comments_of_version
      [⟨"f1", [⟨"v9", "a.txt", none⟩]⟩, ⟨"f2", [⟨"v1", "b.txt", some []⟩]⟩]
      "f1" "v1" = [] :=
  (mongo_get_comments_of_version_total
      [⟨"f1", [⟨"v9", "a.txt", none⟩]⟩, ⟨"f2", [⟨"v1", "b.txt", some []⟩]⟩]
      "f1" "v1").2.1
    (by decide)

/-! ## Reply creation and deletion (mongodb_model.py) -/

/-- Effect of MongoDB's positional `$push` on one comment: append the reply
when the arrayFilter `comment.id == c` matches. -/
def addReplyCom (c : String) (r : Reply) (com : Comment) : Comment :=
  if com.id = c then {com with replies := com.replies ++ [r]} else com

/-- Effect of the `mongo_save_reply` update on one version entry: the
arrayFilter `version.id == v` selects the version and the push descends into
its comments. -/
def addReplyVer (v c : String) (r : Reply) (ver : CVer) : CVer :=
  if ver.id = v then
    {ver with comments := ver.comments.map (fun l => l.map (addReplyCom c r))}
  else ver

/-- Query of `mongo_save_reply`: `{id, versions.id, versions.comments.id}` —
each array condition may be satisfied by a different array element. -/
def saveReplyQuery (f v c : String) (d : CFileDoc) : Bool :=
  decide (d.id = f) && d.versions.any (fun ver => decide (ver.id = v))
    && d.versions.any (fun ver =>
        (ver.comments.getD []).any (fun com => decide (com.id = c)))

/-- Embedding of `mongo_save_reply` (mongodb_model.py, lines 229-278):
`update_one` with arrayFilters `[version.id == v, comment.id == c]` pushing
the reply; returns the reply data iff `modified_count > 0`.  The generated
ObjectId of the reply is abstracted as the `r` parameter. -/
def mongo_save_reply (coll : List CFileDoc) (f v c : String) (r : Reply) :
    Option Reply × List CFileDoc :=
  match coll.find? (saveReplyQuery f v c) with
  | none => (none, coll)
  | some d =>
    let modified := d.versions.any (fun ver =>
      decide (ver.id = v)
        && (ver.comments.getD []).any (fun com => decide (com.id = c)))
    ((if modified then some r else none),
      updateFirst (saveReplyQuery f v c)
        (fun doc => {doc with versions := doc.versions.map (addReplyVer v c r)})
        coll)

/-- Effect of MongoDB's `$pull {"id": rid}` on one comment's replies. -/
def delReplyCom (rid : String) (com : Comment) : Comment :=
  {com with replies := com.replies.filter (fun rep => !decide (rep.id = rid))}

/-- Effect of the `mongo_delete_reply` update on one version entry: the
arrayFilter `version.id == v` selects the version and `comments.$[]` applies
the pull to every comment of it. -/
def delReplyVer (v rid : String) (ver : CVer) : CVer :=
  if ver.id = v then
    {ver with comments := ver.comments.map (fun l => l.map (delReplyCom rid))}
  else ver

/-- Query of `mongo_delete_reply`:
`{id, versions.id, versions.comments.replies.id}`. -/
def delReplyQuery (f v rid : String) (d : CFileDoc) : Bool :=
  decide (d.id = f) && d.versions.any (fun ver => decide (ver.id = v))
    && d.versions.any (fun ver =>
        (ver.comments.getD []).any (fun com =>
          com.replies.any (fun rep => decide (rep.id = rid))))

/-- Embedding of `mongo_delete_reply` (mongodb_model.py, lines 281-312):
locates the reply by id alone (no parent comment id) and pulls it from every
comment of the version; returns `modified_count > 0`. -/
def mongo_delete_reply (coll : List CFileDoc) (f v rid : String) :
    Bool × List CFileDoc :=
  match coll.find? (delReplyQuery f v rid) with
  | none => (false, coll)
  | some d =>
    (d.versions.any (fun ver =>
        decide (ver.id = v)
          && (ver.comments.getD []).any (fun com =>
            com.replies.any (fun rep => decide (rep.id = rid)))),
      updateFirst (delReplyQuery f v rid)
        (fun doc =>
          {doc with versions := doc.versions.map (delReplyVer v rid)})
        coll)

/-- Comments with id `c` inside version entries with id `v` of a document. -/
def parentComments (d : CFileDoc) (v c : String) : List Comment :=
  (d.versions.filter (fun ver => decide (ver.id = v))).flatMap
    (fun ver => (ver.comments.getD []).filter (fun com => decide (com.id = c)))

/-- Replies of the parent comment(s) with id `c` in the `(file, version)`
scope, read from the first document stored for the file. -/
def repliesOf (coll : List CFileDoc) (f v c : String) : List Reply :=
  match coll.find? (fun d => decide (d.id = f)) with
  | none => []
  | some d => (parentComments d v c).flatMap (fun com => com.replies)

/-- Whether a reply with id `rid` is still reachable in the `(file, version)`
scope of the first document stored for the file. -/
def replyInScope (coll : List CFileDoc) (f v rid : String) : Bool :=
  match coll.find? (fun d => decide (d.id = f)) with
  | none => false
  | some d =>
    d.versions.any (fun ver =>
      decide (ver.id = v)
        && (ver.comments.getD []).any (fun com =>
          com.replies.any (fun rep => decide (rep.id = rid))))

/-- Append a reply to a comment (what the positional push does to the
matched comment). -/
def pushReply (r : Reply) (com : Comment) : Comment :=
  {com with replies := com.replies ++ [r]}

theorem updateFirst_eq_self (p : α → Bool) (g : α → α) (l : List α)
    (h : ∀ a ∈ l, p a = true → g a = a) : updateFirst p g l = l := by
  induction l with
  | nil => rfl
  | cons a as ih =>
    by_cases hp : p a
    · simp [updateFirst, hp, h a (by simp) hp]
    · simp [updateFirst, hp]
      exact ih (fun a ha hpa => h a (by simp [ha]) hpa)

theorem find?_split (p : α → Bool) (pre post : List α) (a₀ : α)
    (hpre : ∀ a ∈ pre, p a = false) (hp : p a₀ = true) :
    (pre ++ a₀ :: post).find? p = some a₀ := by
  induction pre with
  | nil => simp [List.find?_cons_of_pos _ hp]
  | cons a as ih =>
    rw [List.cons_append, List.find?_cons_of_neg _ (by simp [hpre a (by simp)])]
    exact ih (fun a ha => hpre a (by simp [ha]))

theorem updateFirst_split (p : α → Bool) (g : α → α) (pre post : List α)
    (a₀ : α) (hpre : ∀ a ∈ pre, p a = false) (hp : p a₀ = true) :
    updateFirst p g (pre ++ a₀ :: post) = pre ++ g a₀ :: post := by
  induction pre with
  | nil => simp [updateFirst, hp]
  | cons a as ih =>
    rw [List.cons_append, updateFirst, if_neg (by simp [hpre a (by simp)])]
    rw [ih (fun a ha => hpre a (by simp [ha])), List.cons_append]

theorem flatMap_congr {l : List α} {f f' : α → List β}
    (h : ∀ a ∈ l, f a = f' a) : l.flatMap f = l.flatMap f' := by
  induction l with
  | nil => rfl
  | cons a as ih =>
    simp only [List.flatMap_cons, h a (by simp)]
    rw [ih (fun a ha => h a (by simp [ha]))]

theorem addReplyCom_id (c : String) (r : Reply) (com : Comment) :
    (addReplyCom c r com).id = com.id := by
  unfold addReplyCom
  split <;> rfl

theorem addReplyVer_id (v c : String) (r : Reply) (ver : CVer) :
    (addReplyVer v c r ver).id = ver.id := by
  unfold addReplyVer
  split <;> rfl

theorem addReplyVer_eq_self (v c : String) (r : Reply) (ver : CVer)
    (h : ver.id = v → ∀ com ∈ ver.comments.getD [], ¬ com.id = c) :
    addReplyVer v c r ver = ver := by
  unfold addReplyVer
  by_cases hv : ver.id = v
  · rw [if_pos hv]
    cases hc : ver.comments with
    | none => rw [Option.map_none', ← hc]
    | some l =>
      have hl : l.map (addReplyCom c r) = l := by
        conv_rhs => rw [← List.map_id l]
        apply List.map_congr_left
        intro com hcom
        show addReplyCom c r com = com
        exact if_neg (h hv com (by simp [hc, hcom]))
      rw [Option.map_some', hl, ← hc]
  · rw [if_neg hv]

theorem parentComments_addReply (d : CFileDoc) (v c : String) (r : Reply) :
    parentComments
        {d with versions := d.versions.map (addReplyVer v c r)} v c
      = (parentComments d v c).map (pushReply r) := by
  unfold parentComments
  show ((d.versions.map (addReplyVer v c r)).filter _).flatMap _ = _
  rw [List.filter_map]
  rw [List.filter_congr (fun ver _ => by
    show decide ((addReplyVer v c r ver).id = v) = decide (ver.id = v)
    rw [addReplyVer_id])]
  rw [List.flatMap_map, List.map_flatMap]
  apply flatMap_congr
  intro ver hver
  have hv : ver.id = v := by simpa using (List.mem_filter.mp hver).2
  show ((addReplyVer v c r ver).comments.getD []).filter
      (fun com => decide (com.id = c)) = _
  rw [addReplyVer, if_pos hv]
  cases hc : ver.comments with
  | none => simp
  | some l =>
    simp only [Option.map_some', Option.getD_some]
    rw [List.filter_map]
    rw [List.filter_congr (fun com _ => by
      show decide ((addReplyCom c r com).id = c) = decide (com.id = c)
      rw [addReplyCom_id])]
    apply List.map_congr_left
    intro com hcom
    have : com.id = c := by simpa using (List.mem_filter.mp hcom).2
    simp [addReplyCom, pushReply, this]

/-- C8: `mongo_save_reply` fails with a NotFound-style `None` and leaves the
collection untouched when no comment with the given id exists inside the
`(file, version)` scope; when exactly one parent comment with that id exists
in the first document of the file, the reply is appended to that comment's
replies list and the created reply record is returned. -/
theorem mongo_save_reply_spec (coll : List CFileDoc) (f v c : String)
    (r : Reply) :
    ((∀ d ∈ coll, d.id = f → ∀ ver ∈ d.versions, ver.id = v →
        ∀ com ∈ ver.comments.getD [], ¬ com.id = c) →
      mongo_save_reply coll f v c r = (none, coll))
    ∧ (∀ pre d₀ post, coll = pre ++ d₀ :: post →
        (∀ doc ∈ pre, ¬ doc.id = f) → d₀.id = f →
        (parentComments d₀ v c).length = 1 →
        (mongo_save_reply coll f v c r).1 = some r
          ∧ repliesOf (mongo_save_reply coll f v c r).2 f v c
              = repliesOf coll f v c ++ [r]) := by
  constructor
  · intro h
    unfold mongo_save_reply
    cases hf : coll.find? (saveReplyQuery f v c) with
    | none => rfl
    | some d =>
      have hd : d ∈ coll := List.mem_of_find?_eq_some hf
      have hq := List.find?_some hf
      have hid : d.id = f := by
        simp only [saveReplyQuery, Bool.and_eq_true, decide_eq_true_eq] at hq
        exact hq.1.1
      have hmod : (d.versions.any (fun ver =>
          decide (ver.id = v)
            && (ver.comments.getD []).any (fun com => decide (com.id = c))))
          = false := by
        rw [List.any_eq_false]
        intro ver hver
        simp only [Bool.and_eq_true, decide_eq_true_eq, List.any_eq_true,
          not_and, not_exists]
        intro hvid com hcom
        simp [h d hd hid ver hver hvid com hcom]
      have hupd : updateFirst (saveReplyQuery f v c)
          (fun doc =>
            {doc with versions := doc.versions.map (addReplyVer v c r)})
          coll = coll := by
        apply updateFirst_eq_self
        intro a ha hpa
        have haid : a.id = f := by
          simp only [saveReplyQuery, Bool.and_eq_true, decide_eq_true_eq]
            at hpa
          exact hpa.1.1
        have : a.versions.map (addReplyVer v c r) = a.versions := by
          conv_rhs => rw [← List.map_id a.versions]
          apply List.map_congr_left
          intro ver hver
          show addReplyVer v c r ver = ver
          exact addReplyVer_eq_self v c r ver
            (fun hvid => h a ha haid ver hver hvid)
        show ({a with versions := a.versions.map (addReplyVer v c r)}
            : CFileDoc) = a
        rw [this]
      dsimp only
      rw [hmod, hupd]
      simp
  · intro pre d₀ post hsplit hpre hid hone
    obtain ⟨com₀, hcom₀⟩ := List.length_eq_one.mp hone
    have hmem : com₀ ∈ parentComments d₀ v c := by rw [hcom₀]; simp
    unfold parentComments at hmem
    rw [List.mem_flatMap] at hmem
    obtain ⟨ver, hverf, hcomf⟩ := hmem
    have hver : ver ∈ d₀.versions := (List.mem_filter.mp hverf).1
    have hvid : ver.id = v := by
      simpa using (List.mem_filter.mp hverf).2
    have hcom : com₀ ∈ ver.comments.getD [] := (List.mem_filter.mp hcomf).1
    have hcid : com₀.id = c := by
      simpa using (List.mem_filter.mp hcomf).2
    have hq : saveReplyQuery f v c d₀ = true := by
      simp only [saveReplyQuery, Bool.and_eq_true, decide_eq_true_eq,
        List.any_eq_true]
      exact ⟨⟨hid, ver, hver, hvid⟩, ver, hver, com₀, hcom, hcid⟩
    have hqpre : ∀ a ∈ pre, saveReplyQuery f v c a = false := by
      intro a ha
      simp only [saveReplyQuery, Bool.and_eq_true, decide_eq_true_eq,
        Bool.and_eq_false_iff]
      left
      left
      simpa using hpre a ha
    have hmod : (d₀.versions.any (fun ver =>
        decide (ver.id = v)
          && (ver.comments.getD []).any (fun com => decide (com.id = c))))
        = true := by
      rw [List.any_eq_true]
      refine ⟨ver, hver, ?_⟩
      simp only [Bool.and_eq_true, decide_eq_true_eq, List.any_eq_true]
      exact ⟨hvid, com₀, hcom, hcid⟩
    subst hsplit
    have hfind : (pre ++ d₀ :: post).find? (saveReplyQuery f v c) = some d₀ :=
      find?_split _ pre post d₀ hqpre hq
    have hidpre : ∀ a ∈ pre, (fun d => decide (d.id = f)) a = false := by
      intro a ha
      simpa using hpre a ha
    have hupd : updateFirst (saveReplyQuery f v c)
        (fun doc =>
          {doc with versions := doc.versions.map (addReplyVer v c r)})
        (pre ++ d₀ :: post)
        = pre ++ {d₀ with versions := d₀.versions.map (addReplyVer v c r)}
            :: post :=
      updateFirst_split _ _ pre post d₀ hqpre hq
    constructor
    · simp [mongo_save_reply, hfind, hmod]
    · unfold mongo_save_reply
      rw [hfind]
      dsimp only
      rw [hupd]
      unfold repliesOf
      rw [find?_split (fun d => decide (d.id = f)) pre post _ hidpre
        (by simpa using hid)]
      rw [find?_split (fun d => decide (d.id = f)) pre post d₀ hidpre
        (by simpa using hid)]
      dsimp only
      rw [parentComments_addReply, hcom₀]
      simp [pushReply]

/-- Witness for `mongo_save_reply_spec`: posting a reply by bob to alice's
comment `"looks good"` appends the reply and returns it. -/
theorem mongo_save_reply_spec_witness :
    (mongo_save_reply
        [⟨"f", [⟨"v1", "draft.txt",
          some [⟨"c1", "alice", "t1", "looks good", false, []⟩]⟩]⟩]
        "f" "v1" "c1" ⟨"rep1", "bob", "t2", "thanks!"⟩).1
        = some ⟨"rep1", "bob", "t2", "thanks!"⟩
      ∧ repliesOf
          (mongo_save_reply
            [⟨"f", [⟨"v1", "draft.txt",
              some [⟨"c1", "alice", "t1", "looks good", false, []⟩]⟩]⟩]
            "f" "v1" "c1" ⟨"rep1", "bob", "t2", "thanks!"⟩).2
          "f" "v1" "c1"
        = repliesOf
            [⟨"f", [⟨"v1", "draft.txt",
              some [⟨"c1", "alice", "t1", "looks good", false, []⟩]⟩]⟩]
            "f" "v1" "c1" ++ [⟨"rep1", "bob", "t2", "thanks!"⟩] :=
  (mongo_save_reply_spec
      [⟨"f", [⟨"v1", "draft.txt",
        some [⟨"c1", "alice", "t1", "looks good", false, []⟩]⟩]⟩]
      "f" "v1" "c1" ⟨"rep1", "bob", "t2", "thanks!"⟩).2
    [] _ [] rfl (by simp) rfl (by decide)

/-- How `mongo_delete_reply` may change one comment: every identifying field
and the resolution state are preserved, the replies list is exactly the old
list with the pulled id removed, and a comment not holding the reply is left
completely unchanged. -/
def comPreserved (rid : String) (com com' : Comment) : Prop :=
  com'.id = com.id ∧ com'.user = com.user ∧ com'.timestamp = com.timestamp
    ∧ com'.content = com.content ∧ com'.resolved = com.resolved
    ∧ com'.replies = com.replies.filter (fun rep => !decide (rep.id = rid))
    ∧ ((∀ rep ∈ com.replies, ¬ rep.id = rid) → com' = com)

/-- Lift `comPreserved` to the optional comments array of a version entry. -/
def optComRel (rid : String) :
    Option (List Comment) → Option (List Comment) → Prop
  | none, none => True
  | some l, some l' => List.Forall₂ (comPreserved rid) l l'
  | _, _ => False

/-- How `mongo_delete_reply` may change one version entry: untouched, or —
only for the version with the targeted id — comment-wise preserved. -/
def verPreserved (v rid : String) (ver ver' : CVer) : Prop :=
  ver' = ver ∨ (ver'.id = ver.id ∧ ver'.name = ver.name ∧ ver.id = v
    ∧ optComRel rid ver.comments ver'.comments)

/-- How `mongo_delete_reply` may change one document: untouched, or
version-wise preserved with the same id. -/
def docPreserved (v rid : String) (d d' : CFileDoc) : Prop :=
  d' = d
    ∨ (d'.id = d.id
        ∧ List.Forall₂ (verPreserved v rid) d.versions d'.versions)

theorem forall₂_updateFirst (R : α → α → Prop) (p : α → Bool) (g : α → α)
    (hrefl : ∀ a, R a a) (hg : ∀ a, R a (g a)) (l : List α) :
    List.Forall₂ R l (updateFirst p g l) := by
  induction l with
  | nil => exact List.Forall₂.nil
  | cons a as ih =>
    by_cases hp : p a
    · rw [updateFirst, if_pos hp]
      exact List.Forall₂.cons (hg a)
        (List.forall₂_same.mpr (fun x _ => hrefl x))
    · rw [updateFirst, if_neg hp]
      exact List.Forall₂.cons (hrefl a) ih

/-- C9: `mongo_delete_reply` locates a reply by its id alone within the
`(file, version)` scope and removes exactly that reply.  Every document is
related to its updated form by `docPreserved`: parent comments keep their id,
user, timestamp, content and resolved state, keep every reply whose id differs,
and comments (or documents, or versions) not holding the reply are unchanged.
When the reply is present in the scope, the operation reports success and the
reply id becomes unreachable. -/
theorem mongo_delete_reply_spec (coll : List CFileDoc) (f v rid : String) :
    List.Forall₂ (docPreserved v rid) coll (mongo_delete_reply coll f v rid).2
      ∧ (∀ pre d₀ post, coll = pre ++ d₀ :: post →
          (∀ doc ∈ pre, ¬ doc.id = f) → d₀.id = f →
          (d₀.versions.any (fun ver =>
            decide (ver.id = v)
              && (ver.comments.getD []).any (fun com =>
                com.replies.any (fun rep => decide (rep.id = rid))))) = true →
          (mongo_delete_reply coll f v rid).1 = true
            ∧ replyInScope (mongo_delete_reply coll f v rid).2 f v rid
                = false) := by
  constructor
  · unfold mongo_delete_reply
    cases hf : coll.find? (delReplyQuery f v rid) with
    | none =>
      dsimp only
      exact List.forall₂_same.mpr (fun x _ => Or.inl rfl)
    | some d =>
      dsimp only
      refine forall₂_updateFirst (docPreserved v rid) _ _
        (fun a => Or.inl rfl) ?_ coll
      intro a
      right
      refine ⟨rfl, ?_⟩
      rw [List.forall₂_map_right_iff]
      apply List.forall₂_same.mpr
      intro ver _
      by_cases hv : ver.id = v
      · right
        rw [delReplyVer, if_pos hv]
        refine ⟨rfl, rfl, hv, ?_⟩
        cases hc : ver.comments with
        | none => exact trivial
        | some l =>
          show List.Forall₂ (comPreserved rid) l (l.map (delReplyCom rid))
          rw [List.forall₂_map_right_iff]
          apply List.forall₂_same.mpr
          intro com _
          refine ⟨rfl, rfl, rfl, rfl, rfl, rfl, ?_⟩
          intro hno
          show delReplyCom rid com = com
          unfold delReplyCom
          rw [List.filter_eq_self.mpr (fun rep hrep => by
            simpa using hno rep hrep)]
      · left
        exact if_neg hv
  · intro pre d₀ post hsplit hpre hid hany
    obtain ⟨ver, hver, hcond⟩ := List.any_eq_true.mp hany
    obtain ⟨hvid, hin⟩ := Bool.and_eq_true_iff.mp hcond
    have hq : delReplyQuery f v rid d₀ = true := by
      simp only [delReplyQuery, Bool.and_eq_true, decide_eq_true_eq,
        List.any_eq_true]
      exact ⟨⟨hid, ver, hver, by simpa using hvid⟩, ver, hver,
        by simpa using hin⟩
    have hqpre : ∀ a ∈ pre, delReplyQuery f v rid a = false := by
      intro a ha
      simp only [delReplyQuery, Bool.and_eq_false_iff]
      left
      left
      simpa using hpre a ha
    have hidpre : ∀ a ∈ pre, (fun d => decide (d.id = f)) a = false := by
      intro a ha
      simpa using hpre a ha
    subst hsplit
    have hfind : (pre ++ d₀ :: post).find? (delReplyQuery f v rid) = some d₀ :=
      find?_split _ pre post d₀ hqpre hq
    constructor
    · simp only [mongo_delete_reply, hfind]
      exact hany
    · unfold mongo_delete_reply
      rw [hfind]
      dsimp only
      rw [updateFirst_split _ _ pre post d₀ hqpre hq]
      unfold replyInScope
      rw [find?_split (fun d => decide (d.id = f)) pre post _ hidpre
        (by simpa using hid)]
      dsimp only
      rw [List.any_map, List.any_eq_false]
      intro w hw
      show ¬ ((decide ((delReplyVer v rid w).id = v)
          && ((delReplyVer v rid w).comments.getD []).any (fun com =>
            com.replies.any (fun rep => decide (rep.id = rid)))) = true)
      by_cases hwv : w.id = v
      · rw [delReplyVer, if_pos hwv]
        cases hc : w.comments with
        | none => simp
        | some l =>
          simp only [Option.map_some', Option.getD_some, List.any_map]
          simp [delReplyCom, List.any_filter]
      · rw [delReplyVer, if_neg hwv]
        simp [hwv]

/-- Witness for `mongo_delete_reply_spec`: deleting bob's reply `"thanks!"`
by reply id alone reports success and makes the reply unreachable, while the
frame part relates the stored state to the updated one. -/
theorem mongo_delete_reply_spec_witness :
    (mongo_delete_reply
        [⟨"f", [⟨"v1", "draft.txt",
          some [⟨"c1", "alice", "t1", "looks good", false,
            [⟨"rep1", "bob", "t2", "thanks!"⟩]⟩]⟩]⟩]
        "f" "v1" "rep1").1 = true
      ∧ replyInScope
          (mongo_delete_reply
            [⟨"f", [⟨"v1", "draft.txt",
              some [⟨"c1", "alice", "t1", "looks good", false,
                [⟨"rep1", "bob", "t2", "thanks!"⟩]⟩]⟩]⟩]
            "f" "v1" "rep1").2
          "f" "v1" "rep1" = false :=
  (mongo_delete_reply_spec
      [⟨"f", [⟨"v1", "draft.txt",
        some [⟨"c1", "alice", "t1", "looks good", false,
          [⟨"rep1", "bob", "t2", "thanks!"⟩]⟩]⟩]⟩]
      "f" "v1" "rep1").2
    [] _ [] rfl (by simp) rfl (by decide)

/-! ## Google Drive world model (models/google_drive_utils.py)

The Drive service is modelled for one file: `drive` is that file's revision
list in provider order, `mongoRev` the `revisions` collection, `newRevId` and
`newRevTime` the identity the provider would assign to the next uploaded
revision, and the remaining flags inject success or failure of each kind of
external call (an exception raised by the transport).  Every embedded
function returns its result, the updated world, and the trace of external
calls it performed. -/

/-- Revision record as returned by the Drive revisions API. -/
structure RawVersion where
  id : String
  originalFilename : String
  modifiedTime : String
  size : String
  mimeType : String
  keepForever : Bool
deriving DecidableEq

/-- The uploaded content (a Streamlit UploadedFile: `.name`, `.type`). -/
structure UploadFile where
  name : String
  mimeType : String
  size : String
deriving DecidableEq

/-- A file dict as used by the version-control handler. -/
structure FileInfo where
  id : String
  name : String
  mimeType : String
deriving DecidableEq

/-- External calls performed by the embedded functions. -/
inductive Event where
  | renameFile (name : String) (ok : Bool)
  | uploadRevision (name : String) (ok : Bool)
  | listRevisions (ok : Bool)
  | deleteRevision (revId : String) (ok : Bool)
  | setKeepForever (revId : String) (keep ok : Bool)
  | mongoSaveVersion (fileId verId name desc : String) (ok : Bool)
  | mongoDeleteVersion (fileId verId : String)
deriving DecidableEq

structure World where
  drive : List RawVersion
  mongoRev : List FileDocR
  newRevId : String
  newRevTime : String
  renameOk : Bool
  uploadOk : Bool
  revListOk : Bool
  deleteRevOk : String → Bool
  keepForeverOk : Bool
  mongoSaveOk : Bool

/-- Embedding of `gds_rename_file` (google_drive_utils.py, lines 276-305):
catches every error internally and returns `None` on failure — it never
raises to its caller. -/
def gds_rename_file (w : World) (new_name : String) :
    Option Unit × List Event :=
  if w.renameOk then (some (), [.renameFile new_name true])
  else (none, [.renameFile new_name false])

/-- Embedding of `gds_get_versions_of_a_file` (google_drive_utils.py, lines
346-377): lists the revisions in provider order; on a transport error it
catches and returns the empty list. -/
def gds_get_versions_of_a_file (w : World) : List RawVersion × List Event :=
  if w.revListOk then (w.drive, [.listRevisions true])
  else ([], [.listRevisions false])

/-- Embedding of `gds_get_current_version` (google_drive_utils.py, lines
308-343): the last element of the provider-ordered revision list, `None`
when the list is empty or the call fails. -/
def gds_get_current_version (w : World) : Option RawVersion × List Event :=
  if w.revListOk then (w.drive.getLast?, [.listRevisions true])
  else (none, [.listRevisions false])

/-- Embedding of `gds_update_keep_forever_version` (google_drive_utils.py,
lines 1091-1117): sets the pin on one revision; catches internally and
returns `False` on failure. -/
def gds_update_keep_forever_version (w : World) (revId : String)
    (keep : Bool) : Bool × World × List Event :=
  if w.keepForeverOk then
    (true,
      {w with drive := w.drive.map (fun r =>
        if r.id = revId then {r with keepForever := keep} else r)},
      [.setKeepForever revId keep true])
  else (false, w, [.setKeepForever revId keep false])

/-- Embedding of `gds_delete_version` (google_drive_utils.py, lines 172-199):
deletes one revision, catches internally, returns a success Boolean. -/
def gds_delete_version (w : World) (file_id version_id : String) :
    Bool × World × List Event :=
  if w.deleteRevOk version_id then
    (true,
      {w with drive := w.drive.filter (fun r => !decide (r.id = version_id))},
      [.deleteRevision version_id true])
  else (false, w, [.deleteRevision version_id false])

/-- Embedding of `gds_upload_version` (google_drive_utils.py, lines
1002-1088).  Inside one `try`: step 1 renames the file to the uploaded
content's name (`gds_rename_file` itself never raises), step 2 uploads the
content as a new revision (a transport error here raises and is caught by
the surrounding `except`, which returns `None`), step 3 — only when the pin
is requested — fetches the current revision and pins it (a failed fetch
makes the `latest_version["id"]` subscript raise, again returning `None`;
a failed pin update is swallowed), and step 4 renames the file back.  The
exception text is not modelled. -/
def gds_upload_version (w : World) (file_id file_name : String)
    (file_path : UploadFile) (change_file_type keep_forever : Bool) :
    Option Unit × World × List Event :=
  let t1 := (gds_rename_file w file_path.name).2
  if w.uploadOk then
    let w1 := {w with drive := w.drive ++
      [⟨w.newRevId, file_path.name, w.newRevTime, file_path.size,
        file_path.mimeType, false⟩]}
    let t2 := t1 ++ [.uploadRevision file_path.name true]
    if keep_forever then
      let res := gds_get_current_version w1
      let t3 := t2 ++ res.2
      match res.1 with
      | some latest =>
        let k := gds_update_keep_forever_version w1 latest.id true
        (some (), k.2.1,
          t3 ++ k.2.2 ++ (gds_rename_file k.2.1 file_name).2)
      | none => (none, w1, t3)
    else (some (), w1, t2 ++ (gds_rename_file w1 file_name).2)
  else (none, w, t1 ++ [.uploadRevision file_path.name false])

/-- Loop body of `gds_delete_old_versions`: attempt to delete `r` unless it
carries the current (last-listed) revision id; a failed deletion is caught
and the loop continues. -/
def purgeStep (file_id current_revision_id : String)
    (acc : World × List Event) (r : RawVersion) : World × List Event :=
  if r.id ≠ current_revision_id then
    let d := gds_delete_version acc.1 file_id r.id
    (d.2.1, acc.2 ++ d.2.2)
  else acc

/-- Embedding of `gds_delete_old_versions` (google_drive_utils.py, lines
1120-1148): fetch the revisions, return early when there are none, else
delete every revision whose id differs from the last-listed one, tolerating
individual failures.  The Python function returns `None` — it reports no
count of deleted versus attempted revisions (it only prints per-revision
log lines). -/
def gds_delete_old_versions (w : World) (file_id : String) :
    World × List Event :=
  let res := gds_get_versions_of_a_file w
  match res.1.getLast? with
  | none => (w, res.2)
  | some last => res.1.foldl (purgeStep file_id last.id) (w, res.2)

/-! ## Version listing for display (version_control_handler.py) -/

/-- A version row after formatting, description decoration and numbering. -/
structure DisplayVersion where
  id : String
  originalFilename : String
  modifiedTime : String
  size : String
  mimeType : String
  keepForever : Bool
  description : String
  versionNumber : Nat
deriving DecidableEq

/-- First loop of `get_versions_of_file_for_display`: format size, modified
time and MIME type for display.  `format_size`, `format_date` and
`format_mime_type` (general_utils.py) are abstracted as the string functions
`fmtS`, `fmtD`, `fmtM` — `format_date` in particular converts to the local
timezone, so its value depends on the environment; what matters here is that
an unparseable date formats to `"N/A"`. -/
def formatVersion (fmtD fmtS fmtM : String → String) (r : RawVersion) :
    RawVersion :=
  {r with
    size := fmtS r.size,
    modifiedTime := fmtD r.modifiedTime,
    mimeType := fmtM r.mimeType}

/-- Second loop of `get_versions_of_file_for_display`: default the
description to `"N/A"` and overwrite it from MongoDB when the version is
found there (a stored version record always carries a description field). -/
def addDescription (mongoRev : List FileDocR) (file_id : String)
    (r : RawVersion) : DisplayVersion :=
  { id := r.id, originalFilename := r.originalFilename,
    modifiedTime := r.modifiedTime, size := r.size, mimeType := r.mimeType,
    keepForever := r.keepForever,
    description :=
      match mongo_get_version mongoRev file_id r.id with
      | some vr => vr.description
      | none => "N/A",
    versionNumber := 0 }

/-- The Python sort key
`(x["modifiedTime"] != "N/A", x["modifiedTime"] if ... else "")`. -/
def sortKey (d : DisplayVersion) : Bool × String :=
  (decide (d.modifiedTime ≠ "N/A"),
    if d.modifiedTime ≠ "N/A" then d.modifiedTime else "")

/-- Python's ascending comparison on `(bool, str)` tuples:
`False < True`, strings by code point. -/
def pairLe (a b : Bool × String) : Bool :=
  if a.1 = b.1 then strLe a.2 b.2 else (!a.1 && b.1)

/-- Ordering used by `versions.sort(key=...)`. -/
def dispLe (a b : DisplayVersion) : Prop :=
  pairLe (sortKey a) (sortKey b) = true

instance : DecidableRel dispLe := fun a b =>
  inferInstanceAs (Decidable (_ = true))

theorem pairLe_total (a b : Bool × String) : pairLe a b || pairLe b a := by
  rcases a with ⟨x, s⟩
  rcases b with ⟨y, t⟩
  cases x <;> cases y <;>
    simp [pairLe, strLe] <;>
    simpa using strLeList_total s.data t.data

theorem pairLe_trans (a b c : Bool × String) (h1 : pairLe a b)
    (h2 : pairLe b c) : pairLe a c := by
  rcases a with ⟨x, s⟩
  rcases b with ⟨y, t⟩
  rcases c with ⟨z, u⟩
  cases x <;> cases y <;> cases z <;>
    simp [pairLe, strLe] at h1 h2 ⊢ <;>
    exact strLeList_trans s.data t.data u.data h1 h2

instance : IsTotal DisplayVersion dispLe :=
  ⟨fun a b => by
    have := pairLe_total (sortKey a) (sortKey b)
    rcases Bool.or_eq_true_iff.mp this with h | h
    · exact Or.inl h
    · exact Or.inr h⟩

instance : IsTrans DisplayVersion dispLe :=
  ⟨fun a b c h1 h2 => pairLe_trans (sortKey a) (sortKey b) (sortKey c) h1 h2⟩

/-- Embedding of
`VersionControlHandler.get_versions_of_file_for_display`
(version_control_handler.py, lines 401-455): fetch the revisions, format
them, decorate each with its MongoDB description (default `"N/A"`), sort
ascending by the `(modifiedTime != "N/A", modifiedTime)` key — a stable
sort, modelled by insertion sort — and number the result from 1.  No
`"(current version)"` suffix is attached anywhere in this function. -/
def get_versions_of_file_for_display (fmtD fmtS fmtM : String → String)
    (w : World) (file_id : String) : List DisplayVersion × List Event :=
  let fetched := gds_get_versions_of_a_file w
  let formatted := fetched.1.map (formatVersion fmtD fmtS fmtM)
  let decorated := formatted.map (addDescription w.mongoRev file_id)
  let sorted := decorated.insertionSort dispLe
  ((sorted.enumFrom 1).map (fun p => {p.2 with versionNumber := p.1}),
    fetched.2)

theorem enumFrom_snd_mem {q : Nat × α} :
    ∀ {n : Nat} {l : List α}, q ∈ l.enumFrom n → q.2 ∈ l := by
  intro n l
  induction l generalizing n with
  | nil => intro h; cases h
  | cons a as ih =>
    intro h
    rcases List.mem_cons.mp h with heq | hmem
    · rw [heq]
      exact List.mem_cons_self a as
    · exact List.mem_cons_of_mem a (ih hmem)

theorem pairwise_snd_enumFrom (R : α → α → Prop) :
    ∀ (n : Nat) (l : List α), l.Pairwise R →
      (l.enumFrom n).Pairwise (fun p q => R p.2 q.2) := by
  intro n l
  induction l generalizing n with
  | nil => intro _; exact .nil
  | cons a as ih =>
    intro h
    rw [List.pairwise_cons] at h
    exact List.Pairwise.cons (fun q hq => h.1 q.2 (enumFrom_snd_mem hq))
      (ih (n + 1) h.2)

theorem numbered_map {β : Type} (g : DisplayVersion → β)
    (hg : ∀ d n, g {d with versionNumber := n} = g d)
    (l : List DisplayVersion) (n : Nat) :
    ((l.enumFrom n).map
        (fun p => {p.2 with versionNumber := p.1})).map g = l.map g := by
  rw [List.map_map]
  have : (g ∘ fun (p : Nat × DisplayVersion) =>
      {p.2 with versionNumber := p.1}) = (g ∘ Prod.snd) :=
    funext fun p => hg p.2 p.1
  rw [this, ← List.map_map, List.enumFrom_map_snd]

theorem display_proj_perm {β : Type} (fmtD fmtS fmtM : String → String)
    (w : World) (file_id : String) (g : DisplayVersion → β)
    (hg : ∀ d n, g {d with versionNumber := n} = g d) :
    ((get_versions_of_file_for_display fmtD fmtS fmtM w file_id).1.map g).Perm
      ((((gds_get_versions_of_a_file w).1.map
          (formatVersion fmtD fmtS fmtM)).map
        (addDescription w.mongoRev file_id)).map g) := by
  unfold get_versions_of_file_for_display
  dsimp only
  rw [numbered_map g hg]
  exact (List.perm_insertionSort dispLe _).map g

/-- C1 (amended): the display listing numbers the fetched revisions with the
contiguous sequence `1..N`, is sorted ascending by the
`(modifiedTime != "N/A", modifiedTime)` key — entries whose formatted
`modifiedTime` is `"N/A"` first, the rest ascending by the display string —
and passes the `originalFilename` values through as a permutation of the
fetched ones: no name is altered, so no `"(current version)"` suffix is
attached by this function. -/
theorem get_versions_display_order (fmtD fmtS fmtM : String → String)
    (w : World) (file_id : String) :
    ((get_versions_of_file_for_display fmtD fmtS fmtM w file_id).1.map
        (fun d => d.versionNumber))
        = List.range' 1 (gds_get_versions_of_a_file w).1.length
      ∧ List.Pairwise dispLe
          (get_versions_of_file_for_display fmtD fmtS fmtM w file_id).1
      ∧ ((get_versions_of_file_for_display fmtD fmtS fmtM w file_id).1.map
            (fun d => d.originalFilename)).Perm
          ((gds_get_versions_of_a_file w).1.map
            (fun r => r.originalFilename)) := by
  refine ⟨?_, ?_, ?_⟩
  · unfold get_versions_of_file_for_display
    dsimp only
    rw [List.map_map]
    have : ((fun d => d.versionNumber) ∘ fun (p : Nat × DisplayVersion) =>
        {p.2 with versionNumber := p.1}) = Prod.fst :=
      funext fun p => rfl
    rw [this, List.enumFrom_map_fst]
    have hlen := (List.perm_insertionSort dispLe
      (((gds_get_versions_of_a_file w).1.map
          (formatVersion fmtD fmtS fmtM)).map
        (addDescription w.mongoRev file_id))).length_eq
    simp only [List.length_map] at hlen
    rw [hlen]
  · unfold get_versions_of_file_for_display
    dsimp only
    rw [List.pairwise_map]
    have hs : List.Pairwise dispLe
        ((((gds_get_versions_of_a_file w).1.map
            (formatVersion fmtD fmtS fmtM)).map
          (addDescription w.mongoRev file_id)).insertionSort dispLe) :=
      List.sorted_insertionSort dispLe _
    exact pairwise_snd_enumFrom _ 1 _ hs
  · refine (display_proj_perm fmtD fmtS fmtM w file_id
      (fun d => d.originalFilename) (fun d n => rfl)).trans ?_
    rw [List.map_map, List.map_map]
    exact List.Perm.refl _

/-- C1 (counterexample to the suffix part): for a single-revision file with
`originalFilename` `"draft.txt"` the listing's unique entry is numbered
`N = 1` and its display name is `"draft.txt"` — which is not any string with
the `" (current version)"` suffix, so the entry numbered `N` does not carry
the suffix. -/
theorem get_versions_display_no_suffix :
    ((get_versions_of_file_for_display id id id
        ⟨[⟨"r1", "draft.txt", "2025-01-01 00:00:00", "9", "text/plain",
          false⟩],
         [], "x", "x", true, true, true, fun _ => true, true, true⟩
        "f1").1.map (fun d => (d.versionNumber, d.originalFilename)))
        = [(1, "draft.txt")]
      ∧ ∀ base : String, "draft.txt" ≠ base ++ " (current version)" := by
  constructor
  · decide
  · intro base h
    have hlen := congrArg String.length h
    rw [String.length_append] at hlen
    have h9 : ("draft.txt" : String).length = 9 := rfl
    have h18 : (" (current version)" : String).length = 18 := rfl
    rw [h9, h18] at hlen
    omega

/-! ## Version lifecycle handlers (version_control_handler.py) -/

/-- Embedding of `VersionControlHandler.upload_version`
(version_control_handler.py, lines 100-180).  Step 1 calls
`gds_upload_version` (whose return value is ignored) and, when requested,
`gds_delete_old_versions`; both catch all their errors internally, so the
step-1 `except` branch can never fire and is dead code.  Step 2 fetches the
current revision — if that yields `None` the `curr_version["id"]` subscript
raises and the step-2 `except` returns a failure — and saves the description
to MongoDB (a transport failure there is caught by the same `except`; the
exception text appended to the messages is not modelled). -/
def upload_version (w : World) (file : FileInfo)
    (version_to_upload : UploadFile) (description : String)
    (keep_forever change_file_type keep_only_latest_version : Bool) :
    (Bool × String) × World × List Event :=
  let r1 := gds_upload_version w file.id file.name version_to_upload
    change_file_type keep_forever
  let s2 := if keep_only_latest_version
    then gds_delete_old_versions r1.2.1 file.id
    else (r1.2.1, [])
  let cv := gds_get_current_version s2.1
  match cv.1 with
  | none =>
    ((false, "Failed to save data of version to mongoDB: "), s2.1,
      r1.2.2 ++ s2.2 ++ cv.2)
  | some curr =>
    if s2.1.mongoSaveOk then
      ((true, "Version uploaded successfully."
          ++ (if keep_forever then " The file will be kept forever." else "")
          ++ (if keep_only_latest_version
            then " Only the latest version will be kept, and older versions have been deleted."
            else "")),
        {s2.1 with mongoRev := (mongo_save_version s2.1.mongoRev file.id
          curr.id curr.originalFilename description)},
        r1.2.2 ++ s2.2 ++ cv.2
          ++ [.mongoSaveVersion file.id curr.id curr.originalFilename
            description true])
    else
      ((false, "Failed to save data of version to mongoDB: "), s2.1,
        r1.2.2 ++ s2.2 ++ cv.2
          ++ [.mongoSaveVersion file.id curr.id curr.originalFilename
            description false])

/-- Embedding of `VersionControlHandler.delete_version`
(version_control_handler.py, lines 574-598): delete the revision from
Google Drive; only when that reports success, delete the version entry from
MongoDB (that call raises no handled errors) and report success. -/
def delete_version (w : World) (file_id version_id : String) :
    (Bool × String) × World × List Event :=
  let d := gds_delete_version w file_id version_id
  if d.1 then
    ((true, "Version deleted successfully."),
      {d.2.1 with mongoRev := (mongo_delete_version d.2.1.mongoRev file_id
        version_id)},
      d.2.2 ++ [.mongoDeleteVersion file_id version_id])
  else
    ((false, "Failed to delete version."), d.2.1, d.2.2)

theorem gds_rename_file_trace (w : World) (n : String) :
    (gds_rename_file w n).2 = [.renameFile n w.renameOk] := by
  unfold gds_rename_file
  by_cases h : w.renameOk <;> simp [h]

theorem gds_update_keep_forever_trace (w : World) (revId : String)
    (keep : Bool) :
    (gds_update_keep_forever_version w revId keep).2.2
        = [.setKeepForever revId keep w.keepForeverOk]
      ∧ (gds_update_keep_forever_version w revId keep).2.1.renameOk
          = w.renameOk := by
  unfold gds_update_keep_forever_version
  by_cases h : w.keepForeverOk <;> simp [h]

/-- C4: in every execution of `gds_upload_version` the external calls happen
in the order (a) rename to the uploaded content's name, (b) upload the new
revision, (c) — only when the pin is requested — list revisions and pin the
just-created revision, (d) rename back to the original name; the rename-back
never precedes the upload, and is skipped entirely when an earlier step
raises. -/
theorem gds_upload_version_order (w : World) (file_id file_name : String)
    (up : UploadFile) (cft kf : Bool) :
    (w.uploadOk = false
      ∧ (gds_upload_version w file_id file_name up cft kf).2.2
          = [.renameFile up.name w.renameOk, .uploadRevision up.name false])
    ∨ (w.uploadOk = true ∧ kf = false
      ∧ (gds_upload_version w file_id file_name up cft kf).2.2
          = [.renameFile up.name w.renameOk, .uploadRevision up.name true,
            .renameFile file_name w.renameOk])
    ∨ (w.uploadOk = true ∧ kf = true ∧ w.revListOk = false
      ∧ (gds_upload_version w file_id file_name up cft kf).2.2
          = [.renameFile up.name w.renameOk, .uploadRevision up.name true,
            .listRevisions false])
    ∨ (w.uploadOk = true ∧ kf = true ∧ w.revListOk = true
      ∧ (gds_upload_version w file_id file_name up cft kf).2.2
          = [.renameFile up.name w.renameOk, .uploadRevision up.name true,
            .listRevisions true,
            .setKeepForever w.newRevId true w.keepForeverOk,
            .renameFile file_name w.renameOk]) := by
  by_cases hu : w.uploadOk
  · by_cases hk : kf
    · by_cases hr : w.revListOk
      · right; right; right
        refine ⟨hu, hk, hr, ?_⟩
        unfold gds_upload_version
        simp [hu, hk, hr, gds_get_current_version, List.getLast?_concat,
          gds_rename_file_trace, (gds_update_keep_forever_trace _ _ _).1,
          (gds_update_keep_forever_trace _ _ _).2]
      · have hr' : w.revListOk = false := by simpa using hr
        right; right; left
        refine ⟨hu, hk, hr', ?_⟩
        unfold gds_upload_version
        simp [hu, hk, hr', gds_get_current_version, gds_rename_file_trace]
    · have hk' : kf = false := by simpa using hk
      right; left
      refine ⟨hu, hk', ?_⟩
      unfold gds_upload_version
      simp [hu, hk', gds_rename_file_trace]
  · have hu' : w.uploadOk = false := by simpa using hu
    left
    refine ⟨hu', ?_⟩
    unfold gds_upload_version
    simp [hu', gds_rename_file_trace]

/-- The revision-deletion attempts recorded in a trace, in order, each with
its outcome. -/
def deleteAttempts (t : List Event) : List (String × Bool) :=
  t.filterMap (fun e =>
    match e with
    | .deleteRevision revId ok => some (revId, ok)
    | _ => none)

theorem deleteAttempts_append (t1 t2 : List Event) :
    deleteAttempts (t1 ++ t2) = deleteAttempts t1 ++ deleteAttempts t2 := by
  unfold deleteAttempts
  rw [List.filterMap_append]

theorem purge_fold_trace (file_id lastId : String) :
    ∀ (l : List RawVersion) (w0 : World) (t0 : List Event),
      (l.foldl (purgeStep file_id lastId) (w0, t0)).2
        = t0 ++ (l.filter (fun r => !decide (r.id = lastId))).map
            (fun r => Event.deleteRevision r.id (w0.deleteRevOk r.id)) := by
  intro l
  induction l with
  | nil => intro w0 t0; simp
  | cons r rs ih =>
    intro w0 t0
    by_cases hr : r.id = lastId
    · rw [List.foldl_cons]
      rw [show purgeStep file_id lastId (w0, t0) r = (w0, t0) from
        if_neg (by simp [hr])]
      simp [ih, List.filter_cons, hr]
    · by_cases hd : w0.deleteRevOk r.id
      · rw [List.foldl_cons]
        rw [show purgeStep file_id lastId (w0, t0) r
            = ({w0 with drive :=
                (w0.drive.filter (fun x => !decide (x.id = r.id)))},
              t0 ++ [.deleteRevision r.id true]) from by
          simp [purgeStep, hr, gds_delete_version, hd]]
        rw [ih]
        simp [List.filter_cons, hr, hd]
      · have hd' : w0.deleteRevOk r.id = false := by simpa using hd
        rw [List.foldl_cons]
        rw [show purgeStep file_id lastId (w0, t0) r
            = (w0, t0 ++ [.deleteRevision r.id false]) from by
          simp [purgeStep, hr, gds_delete_version, hd']]
        rw [ih]
        simp [List.filter_cons, hr, hd']

/-- C5 (amended): with a readable, non-empty revision list, the purge
attempts to delete exactly the listed revisions whose id differs from the
last-listed (most recent) one, in listing order — each attempt carries its
own outcome and the list of attempts does not depend on those outcomes, so
an individual failure never aborts the remaining deletions — and the most
recent revision's id is never attempted.  The function itself returns no
aggregate count of deleted versus attempted revisions. -/
theorem gds_delete_old_versions_spec (w : World) (file_id : String)
    (hok : w.revListOk = true) (hne : w.drive ≠ []) :
    deleteAttempts (gds_delete_old_versions w file_id).2
        = (w.drive.filter
            (fun r => !decide (r.id = (w.drive.getLast hne).id))).map
            (fun r => (r.id, w.deleteRevOk r.id))
      ∧ ∀ pr ∈ deleteAttempts (gds_delete_old_versions w file_id).2,
          pr.1 ≠ (w.drive.getLast hne).id := by
  have hlast : w.drive.getLast? = some (w.drive.getLast hne) :=
    List.getLast?_eq_getLast w.drive hne
  have htr : (gds_delete_old_versions w file_id).2
      = [Event.listRevisions true]
        ++ (w.drive.filter
            (fun r => !decide (r.id = (w.drive.getLast hne).id))).map
          (fun r => Event.deleteRevision r.id (w.deleteRevOk r.id)) := by
    unfold gds_delete_old_versions
    simp only [gds_get_versions_of_a_file, hok, if_true, hlast]
    exact purge_fold_trace file_id _ w.drive w [Event.listRevisions true]
  constructor
  · rw [htr, deleteAttempts_append]
    have h1 : deleteAttempts [Event.listRevisions true] = [] := rfl
    rw [h1]
    unfold deleteAttempts
    rw [List.filterMap_map]
    exact List.filterMap_eq_map_iff_forall_eq_some.mpr (fun x _ => rfl)
  · intro pr hpr
    rw [htr, deleteAttempts_append] at hpr
    have h1 : deleteAttempts [Event.listRevisions true] = [] := rfl
    rw [h1, List.nil_append] at hpr
    unfold deleteAttempts at hpr
    rw [List.filterMap_map] at hpr
    rcases List.mem_filterMap.mp hpr with ⟨r, hrmem, hreq⟩
    have hne' : ¬ r.id = (w.drive.getLast hne).id := by
      simpa using (List.mem_filter.mp hrmem).2
    have : (r.id, w.deleteRevOk r.id) = pr := by
      simpa using hreq
    rw [← this]
    exact hne'

/-- Witness world for `gds_delete_old_versions_spec`: two revisions, every
deletion attempt failing. -/
def purgeWorldFail : World :=
  ⟨[⟨"r1", "a.txt", "t1", "1", "m", false⟩,
    ⟨"r2", "b.txt", "t2", "1", "m", false⟩], [], "x", "x",
    true, true, true, fun _ => false, true, true⟩

/-- Witness for `gds_delete_old_versions_spec`: even with every deletion
failing, the old revision `r1` is attempted and the newest `r2` is not. -/
theorem gds_delete_old_versions_spec_witness :
    deleteAttempts (gds_delete_old_versions purgeWorldFail "f1").2
      = [("r1", false)] := by
  have h := (gds_delete_old_versions_spec purgeWorldFail "f1" rfl
    (by decide)).1
  rw [h]
  decide

/-- Counterexample world for the count-reporting part of the purge claim:
three old revisions, all deletions succeeding. -/
def purgeWorldA : World :=
  ⟨[⟨"r1", "a.txt", "t1", "1", "m", false⟩,
    ⟨"r2", "b.txt", "t2", "1", "m", false⟩,
    ⟨"r3", "c.txt", "t3", "1", "m", false⟩], [], "r4", "t4",
    true, true, true, fun _ => true, true, true⟩

/-- Same world with every deletion failing. -/
def purgeWorldB : World := {purgeWorldA with deleteRevOk := fun _ => false}

/-- C5 (counterexample to "reports the count of revisions deleted versus
attempted"): the purge returns no value, and the enclosing upload flow
produces the identical `(success, message)` pair whether all three old
revisions were deleted or none was — the reported outcome is independent of
the deleted count, so no count is reported. -/
theorem purge_reports_no_count :
    (upload_version purgeWorldA ⟨"f1", "c.txt", "m"⟩ ⟨"d.txt", "m", "1"⟩ "d"
          false false true).1
        = (upload_version purgeWorldB ⟨"f1", "c.txt", "m"⟩ ⟨"d.txt", "m", "1"⟩
          "d" false false true).1
      ∧ ((deleteAttempts (upload_version purgeWorldA ⟨"f1", "c.txt", "m"⟩
            ⟨"d.txt", "m", "1"⟩ "d" false false true).2.2).countP
          (fun pr => pr.2)) = 3
      ∧ ((deleteAttempts (upload_version purgeWorldB ⟨"f1", "c.txt", "m"⟩
            ⟨"d.txt", "m", "1"⟩ "d" false false true).2.2).countP
          (fun pr => pr.2)) = 0 := by
  refine ⟨?_, ?_, ?_⟩ <;> decide

/-- World for the storage-failure scenario of `upload_version`: the upload
call raises, everything else works. -/
def uploadFailWorld : World :=
  ⟨[⟨"r1", "old.txt", "t1", "10", "text/plain", false⟩], [], "r2", "t2",
    true, false, true, fun _ => true, true, true⟩

/-- C2 (the code contradicts the claim): with the storage write failing
(`uploadOk = false`), `gds_upload_version` swallows the exception and
returns `None`, `upload_version` ignores that return value, proceeds to the
metadata step, saves a MongoDB version record — for the previous head
revision `r1` — and reports overall success. -/
theorem upload_version_metadata_after_storage_failure :
    uploadFailWorld.uploadOk = false
      ∧ (upload_version uploadFailWorld ⟨"f1", "old.txt", "text/plain"⟩
            ⟨"new.txt", "text/plain", "5"⟩ "desc" false false false).1
          = (true, "Version uploaded successfully.")
      ∧ Event.uploadRevision "new.txt" false
          ∈ (upload_version uploadFailWorld ⟨"f1", "old.txt", "text/plain"⟩
            ⟨"new.txt", "text/plain", "5"⟩ "desc" false false false).2.2
      ∧ Event.mongoSaveVersion "f1" "r1" "old.txt" "desc" true
          ∈ (upload_version uploadFailWorld ⟨"f1", "old.txt", "text/plain"⟩
            ⟨"new.txt", "text/plain", "5"⟩ "desc" false false false).2.2
      ∧ (upload_version uploadFailWorld ⟨"f1", "old.txt", "text/plain"⟩
            ⟨"new.txt", "text/plain", "5"⟩ "desc" false false
            false).2.1.mongoRev
          = [⟨"f1", "desc", [⟨"r1", "old.txt", "desc"⟩]⟩] := by
  refine ⟨rfl, ?_, ?_, ?_, ?_⟩ <;> decide

theorem mongo_get_version_delete (coll : List FileDocR) (f v : String)
    (huniq : coll.countP (fun d => decide (d.file_id = f)) ≤ 1) :
    mongo_get_version (mongo_delete_version coll f v) f v = none := by
  induction coll with
  | nil => rfl
  | cons a as ih =>
    by_cases ha : a.file_id = f
    · have hzero : ∀ d ∈ as, ¬ d.file_id = f := by
        have h1 := huniq
        rw [List.countP_cons_of_pos _ _ (by simpa using ha)] at h1
        have h0 : as.countP (fun d => decide (d.file_id = f)) = 0 := by omega
        intro d hd
        have := List.countP_eq_zero.mp h0 d hd
        simpa using this
      unfold mongo_delete_version updateFirst
      rw [if_pos (by simpa using ha)]
      unfold mongo_get_version
      rw [List.find?_cons_of_neg _ (by simp [List.any_filter])]
      rw [List.find?_eq_none.mpr (fun d hd => by simp [hzero d hd])]
      rfl
    · have huniq' : as.countP (fun d => decide (d.file_id = f)) ≤ 1 := by
        have h1 := huniq
        rw [List.countP_cons_of_neg _ _ (by simpa using ha)] at h1
        exact h1
      unfold mongo_delete_version updateFirst
      rw [if_neg (by simpa using ha)]
      unfold mongo_get_version
      rw [List.find?_cons_of_neg _ (by simp [ha])]
      exact ih huniq'

/-- C3: `delete_version` performs the Revision Store deletion first; the
MongoDB deletion happens exactly when the storage deletion succeeded; on
storage failure the whole world — drive and metadata store alike — is left
unchanged and the handler reports failure; and after a reported success the
deleted revision id no longer appears in the display listing and its
metadata is unreachable through `mongo_get_version` (assuming the collection
holds at most one document for the file, which is how `mongo_save_version`
maintains it). -/
theorem delete_version_spec (w : World) (file_id version_id : String)
    (fmtD fmtS fmtM : String → String)
    (huniq : w.mongoRev.countP (fun d => decide (d.file_id = file_id)) ≤ 1) :
    (delete_version w file_id version_id).2.2.head?
        = some (.deleteRevision version_id (w.deleteRevOk version_id))
      ∧ (Event.mongoDeleteVersion file_id version_id
            ∈ (delete_version w file_id version_id).2.2
          ↔ (delete_version w file_id version_id).1.1 = true)
      ∧ ((delete_version w file_id version_id).1.1 = false →
          (delete_version w file_id version_id).2.1 = w
            ∧ (delete_version w file_id version_id).1.2
                = "Failed to delete version.")
      ∧ ((delete_version w file_id version_id).1.1 = true →
          (∀ d ∈ (get_versions_of_file_for_display fmtD fmtS fmtM
              (delete_version w file_id version_id).2.1 file_id).1,
            ¬ d.id = version_id)
          ∧ mongo_get_version
              (delete_version w file_id version_id).2.1.mongoRev
              file_id version_id = none) := by
  by_cases hd : w.deleteRevOk version_id
  · refine ⟨?_, ?_, ?_, ?_⟩
    · simp [delete_version, gds_delete_version, hd]
    · simp [delete_version, gds_delete_version, hd]
    · intro hfalse
      simp [delete_version, gds_delete_version, hd] at hfalse
    · intro _
      constructor
      · intro d hdm
        have hmm : d.id ∈ ((get_versions_of_file_for_display fmtD fmtS fmtM
            (delete_version w file_id version_id).2.1 file_id).1.map
            (fun x => x.id)) := List.mem_map_of_mem _ hdm
        have hperm := display_proj_perm fmtD fmtS fmtM
          (delete_version w file_id version_id).2.1 file_id
          (fun x => x.id) (fun x n => rfl)
        have h2 := hperm.mem_iff.mp hmm
        rw [List.map_map, List.map_map] at h2
        rcases List.mem_map.mp h2 with ⟨r, hrmem, hrid⟩
        have hr2 : r.id = d.id := hrid
        have hw : (delete_version w file_id version_id).2.1.drive
            = w.drive.filter (fun x => !decide (x.id = version_id)) := by
          simp [delete_version, gds_delete_version, hd]
        have hw2 : (delete_version w file_id version_id).2.1.revListOk
            = w.revListOk := by
          simp [delete_version, gds_delete_version, hd]
        unfold gds_get_versions_of_a_file at hrmem
        by_cases hrl : (delete_version w file_id version_id).2.1.revListOk
        · simp only [hrl, if_true] at hrmem
          rw [hw] at hrmem
          have hne : ¬ r.id = version_id := by
            simpa using (List.mem_filter.mp hrmem).2
          rw [← hr2]
          exact hne
        · simp [hrl] at hrmem
      · have hmr : (delete_version w file_id version_id).2.1.mongoRev
            = mongo_delete_version w.mongoRev file_id version_id := by
          simp [delete_version, gds_delete_version, hd]
        rw [hmr]
        exact mongo_get_version_delete w.mongoRev file_id version_id huniq
  · have hd' : w.deleteRevOk version_id = false := by simpa using hd
    refine ⟨?_, ?_, ?_, ?_⟩
    · simp [delete_version, gds_delete_version, hd']
    · simp [delete_version, gds_delete_version, hd']
    · intro _
      exact ⟨by simp [delete_version, gds_delete_version, hd'],
        by simp [delete_version, gds_delete_version, hd']⟩
    · intro htrue
      simp [delete_version, gds_delete_version, hd'] at htrue

/-- Witness world for `delete_version_spec`: two revisions, metadata for the
newer one, every call succeeding. -/
def deleteWorld : World :=
  ⟨[⟨"r1", "a.txt", "t1", "1", "m", false⟩,
    ⟨"r2", "b.txt", "t2", "1", "m", false⟩],
    [⟨"f1", "d", [⟨"r2", "b.txt", "v2"⟩]⟩], "x", "x",
    true, true, true, fun _ => true, true, true⟩

/-- Witness for `delete_version_spec`: deleting `r2` succeeds, the listing
of the resulting world contains no entry with id `r2`, and its metadata is
gone. -/
theorem delete_version_spec_witness :
    (delete_version deleteWorld "f1" "r2").1.1 = true
      ∧ (∀ d ∈ (get_versions_of_file_for_display id id id
          (delete_version deleteWorld "f1" "r2").2.1 "f1").1,
          ¬ d.id = "r2")
      ∧ mongo_get_version (delete_version deleteWorld "f1" "r2").2.1.mongoRev
          "f1" "r2" = none := by
  have h := (delete_version_spec deleteWorld "f1" "r2" id id id
    (by decide)).2.2.2 (by decide)
  exact ⟨by decide, h.1, h.2⟩
